import Mathlib

/-!
Verification of the BLAKE3 benchmark harness (`benchmark.ts`).

The numeric model: JavaScript numbers are IEEE doubles; every value the
harness computes is either a finite number (modelled by `ℚ`), one of the
infinities, or `NaN`.  `JSNum` embeds exactly this fragment, and `jsDiv`
and `jsMul` follow the IEEE rules for the cases the harness can reach
(the model has a single zero, `fin 0`, since `performance.now()`
differences never produce `-0`).
-/

namespace B3Bench

inductive JSNum where
  | nan : JSNum
  | posInf : JSNum
  | negInf : JSNum
  | fin : ℚ → JSNum
deriving DecidableEq, Repr

/-- JavaScript `>` on numbers: any comparison with NaN is false. -/
def jsGt : JSNum → JSNum → Bool
  | JSNum.nan, _ => false
  | _, JSNum.nan => false
  | JSNum.posInf, JSNum.posInf => false
  | JSNum.posInf, _ => true
  | JSNum.negInf, _ => false
  | JSNum.fin _, JSNum.posInf => false
  | JSNum.fin _, JSNum.negInf => true
  | JSNum.fin q, JSNum.fin r => decide (r < q)

/-- JavaScript `/` on numbers, restricted to the single-zero model. -/
def jsDiv : JSNum → JSNum → JSNum
  | JSNum.nan, _ => JSNum.nan
  | _, JSNum.nan => JSNum.nan
  | JSNum.posInf, JSNum.posInf => JSNum.nan
  | JSNum.posInf, JSNum.negInf => JSNum.nan
  | JSNum.negInf, JSNum.posInf => JSNum.nan
  | JSNum.negInf, JSNum.negInf => JSNum.nan
  | JSNum.posInf, JSNum.fin q => if q < 0 then JSNum.negInf else JSNum.posInf
  | JSNum.negInf, JSNum.fin q => if q < 0 then JSNum.posInf else JSNum.negInf
  | JSNum.fin _, JSNum.posInf => JSNum.fin 0
  | JSNum.fin _, JSNum.negInf => JSNum.fin 0
  | JSNum.fin q, JSNum.fin r =>
      if r = 0 then
        (if q = 0 then JSNum.nan else if 0 < q then JSNum.posInf else JSNum.negInf)
      else JSNum.fin (q / r)

/-- JavaScript `*` on numbers, restricted to the single-zero model. -/
def jsMul : JSNum → JSNum → JSNum
  | JSNum.nan, _ => JSNum.nan
  | _, JSNum.nan => JSNum.nan
  | JSNum.posInf, JSNum.posInf => JSNum.posInf
  | JSNum.posInf, JSNum.negInf => JSNum.negInf
  | JSNum.negInf, JSNum.posInf => JSNum.negInf
  | JSNum.negInf, JSNum.negInf => JSNum.posInf
  | JSNum.posInf, JSNum.fin q =>
      if q = 0 then JSNum.nan else if 0 < q then JSNum.posInf else JSNum.negInf
  | JSNum.negInf, JSNum.fin q =>
      if q = 0 then JSNum.nan else if 0 < q then JSNum.negInf else JSNum.posInf
  | JSNum.fin q, JSNum.posInf =>
      if q = 0 then JSNum.nan else if 0 < q then JSNum.posInf else JSNum.negInf
  | JSNum.fin q, JSNum.negInf =>
      if q = 0 then JSNum.nan else if 0 < q then JSNum.negInf else JSNum.posInf
  | JSNum.fin q, JSNum.fin r => JSNum.fin (q * r)

/-- Whether a `JSNum` is a finite number. -/
def JSNum.isFinB : JSNum → Bool
  | JSNum.fin _ => true
  | _ => false

/-- Rational value of a finite `JSNum` (junk value `0` otherwise). -/
def toQ : JSNum → ℚ
  | JSNum.fin q => q
  | _ => 0

/-- `BenchmarkResult` record of `benchmark.ts` (lines 146-152): `total` is
the difference of two `performance.now()` readings (always finite), while
`avg` and `throughput` come from JavaScript division and may be infinite. -/
structure BenchmarkResult where
  name : String
  total : ℚ
  avg : JSNum
  throughput : JSNum
  ops : ℕ
deriving DecidableEq, Repr

/-- The timed runner `benchmark` (lines 154-174).  The ambient execution
state is abstracted by `σ`; `now` is the `performance.now()` observation
and `fn` the effect of one call of the measured operation.  Each
`for (let i = 0; i < n; i++) fn();` loop is `(List.range n).foldl`. -/
def benchmark {σ : Type} (now : σ → ℚ) (fn : σ → σ) (name : String)
    (iterations : ℕ) (s : σ) : BenchmarkResult × σ :=
  let s1 := (List.range (min 10 iterations)).foldl (fun t _ => fn t) s
  let start := now s1
  let s2 := (List.range iterations).foldl (fun t _ => fn t) s1
  let endT := now s2
  let total := endT - start
  ({ name := name
     total := total
     avg := jsDiv (JSNum.fin total) (JSNum.fin (iterations : ℚ))
     throughput := jsMul (jsDiv (JSNum.fin (iterations : ℚ)) (JSNum.fin total))
        (JSNum.fin 1000)
     ops := iterations }, s2)

/-- Numeric content of the line built by `formatResult` (lines 176-179):
the `mbps` value is computed with a positivity guard but never
interpolated into the returned string; the ops/sec column prints
`result.throughput` raw. -/
structure FormattedResult where
  mbps : JSNum
  totalMs : ℚ
  avgMs : JSNum
  opsPerSec : JSNum
deriving DecidableEq, Repr

def formatResult (r : BenchmarkResult) : FormattedResult :=
  { mbps := if jsGt r.throughput (JSNum.fin 0) then
        jsDiv r.throughput (JSNum.fin 1000000) else JSNum.fin 0
    totalMs := r.total
    avgMs := r.avg
    opsPerSec := r.throughput }

/-- `Array.prototype.reduce` with no initial value, combining as
`(a, b) => gt a b ? a : b`, with the position of the accumulator tracked
so that the reference identity `result === fastest` of the source can be
expressed as index equality. -/
def reduceAux {α : Type} (gt : α → α → Bool) :
    List α → ℕ → ℕ × α → ℕ × α
  | [], _, acc => acc
  | b :: t, j, acc => reduceAux gt t (j + 1) (if gt acc.2 b then acc else (j, b))

/-- `results.reduce((a, b) => (a.throughput > b.throughput ? a : b))`
(line 185), together with the index of the element it returns. -/
def fastestEntry (results : List BenchmarkResult) :
    Option (ℕ × BenchmarkResult) :=
  match results with
  | [] => none
  | x :: xs => some (reduceAux (fun a b => jsGt a.throughput b.throughput) xs 1 (0, x))

/-- Pair every element with its position, starting at `i`. -/
def enumFrom {α : Type} (i : ℕ) : List α → List (ℕ × α)
  | [] => []
  | a :: t => (i, a) :: enumFrom (i + 1) t

/-- One line of the comparison report (lines 191-198): `none` models the
`N/A` branches taken when `result.throughput > 0` fails. -/
structure CompEntry where
  name : String
  relative : Option JSNum
  speedup : Option JSNum
  fastestMark : Bool
deriving DecidableEq, Repr

/-- `compareResults` (lines 181-200).  `none` is the early return on an
empty list (line 182, no report); otherwise one entry per result, in
order, with the fastest-reduce result fixed up front. -/
def compareResults (results : List BenchmarkResult) : Option (List CompEntry) :=
  match results with
  | [] => none
  | x :: xs =>
    let fp := reduceAux (fun a b => jsGt a.throughput b.throughput) xs 1 (0, x)
    some ((enumFrom 0 (x :: xs)).map (fun p =>
      { name := p.2.name
        relative := if jsGt p.2.throughput (JSNum.fin 0) then
            some (jsMul (jsDiv p.2.throughput fp.2.throughput) (JSNum.fin 100))
          else none
        speedup := if jsGt p.2.throughput (JSNum.fin 0) then
            some (jsDiv fp.2.throughput p.2.throughput)
          else none
        fastestMark := p.1 == fp.1 }))

/-- A one-shot hash function: input text to digest bytes, as used by the
registry slots (`(input: Uint8Array | string) => Uint8Array`; the harness
only ever passes strings). -/
def HashFn : Type := String → List ℕ

/-- One workload descriptor of the fixed matrix (lines 212-217). -/
structure TestCase where
  name : String
  data : String
  iterations : ℕ
deriving DecidableEq, Repr

/-- JavaScript `String.prototype.repeat`. -/
def jsRepeat (s : String) (n : ℕ) : String :=
  String.join (List.replicate n s)

/-- The fixed test-case matrix (lines 212-217). -/
def testCases : List TestCase :=
  [ { name := "Small (11 bytes)", data := "hello world", iterations := 10000 }
  , { name := "Medium (1KB)", data := jsRepeat "a" 1024, iterations := 1000 }
  , { name := "Large (100KB)", data := jsRepeat "a" (100 * 1024), iterations := 100 }
  , { name := "Very Large (1MB)", data := jsRepeat "a" (1024 * 1024), iterations := 10 } ]

/-- The state of the module-level implementation slots after
`loadImplementations` settles (lines 14-26): `b3jsHash` is a static import
and always present; each optional slot is `none`/`false` exactly when the
corresponding load attempt failed.  Streaming factories are tracked by
presence only — their run-time effect is absorbed into the abstract
execution state of `benchmark`. -/
structure Registry where
  b3jsHash : HashFn
  blake3jsHash : Option HashFn
  blake3jsCreateHasher : Bool
  blake3Hash : Option HashFn
  blake3CreateHasher : Bool
  blake3FastHash : Option HashFn
  blake3FastCreateHasher : Bool
  blake3Numi2Hash : Option HashFn
  blake3OptimizedHash : Option HashFn
  bk3jsHash : Option HashFn

/-- One `if (slot) { results.push(benchmark(...)) }` block of the driver
(e.g. lines 233-237), threading the execution state. -/
def benchPush {σ : Type} (now : σ → ℚ) (step : String → σ → σ) (avail : Bool)
    (name : String) (iters : ℕ) :
    List BenchmarkResult × σ → List BenchmarkResult × σ
  | (acc, s) =>
    if avail then
      let r := benchmark now (step name) name iters s
      (acc ++ [r.1], r.2)
    else (acc, s)

/-- One iteration of the per-test-case loop (lines 219-275): an
unconditional `b3js` benchmark first, then the six guarded pushes in
source order.  `step` gives the state effect of one call of the named
operation closure. -/
def runCase {σ : Type} (now : σ → ℚ) (step : String → σ → σ) (reg : Registry)
    (tc : TestCase) (s : σ) : List BenchmarkResult × σ :=
  let r0 := benchmark now (step "b3js") "b3js" tc.iterations s
  benchPush now step reg.bk3jsHash.isSome "bk3js" tc.iterations
    (benchPush now step reg.blake3OptimizedHash.isSome "blake3-optimized" tc.iterations
      (benchPush now step reg.blake3Numi2Hash.isSome "blake3-numi2" tc.iterations
        (benchPush now step reg.blake3FastHash.isSome "blake3-fast (WASM SIMD)" tc.iterations
          (benchPush now step reg.blake3Hash.isSome "blake3 (Rust/WASM)" tc.iterations
            (benchPush now step reg.blake3jsHash.isSome "blake3-js" tc.iterations
              ([r0.1], r0.2))))))

/-- The streaming scenario (lines 277-327): an unconditional
`b3js (streaming)` benchmark at 100 iterations, then the three factories
guarded in source order. -/
def runStreaming {σ : Type} (now : σ → ℚ) (step : String → σ → σ)
    (reg : Registry) (s : σ) : List BenchmarkResult × σ :=
  let r0 := benchmark now (step "b3js (streaming)") "b3js (streaming)" 100 s
  benchPush now step reg.blake3FastCreateHasher "blake3-fast (streaming)" 100
    (benchPush now step reg.blake3CreateHasher "blake3 (streaming)" 100
      (benchPush now step reg.blake3jsCreateHasher "blake3-js (streaming)" 100
        ([r0.1], r0.2)))

/-- `Number.prototype.toString(16)` digit characters (lowercase). -/
def hexDigitChar (n : ℕ) : Char :=
  if n < 10 then Char.ofNat (48 + n) else Char.ofNat (87 + n)

/-- Base-16 digit expansion, most significant first, as produced by
`b.toString(16)` for a non-negative integer. -/
def hexDigitsRec (n : ℕ) : List Char :=
  if _h : n < 16 then [hexDigitChar n]
  else hexDigitsRec (n / 16) ++ [hexDigitChar (n % 16)]
  decreasing_by
    exact Nat.div_lt_self (Nat.pos_of_ne_zero (by omega)) (by omega)

def toString16 (n : ℕ) : String := String.mk (hexDigitsRec n)

/-- `String.prototype.padStart(2, '0')`. -/
def padStart2 (s : String) : String :=
  String.mk (List.replicate (2 - s.length) '0') ++ s

/-- `b.toString(16).padStart(2, '0')` for one digest byte (line 335). -/
def byteToHex (b : ℕ) : String := padStart2 (toString16 b)

/-- `Array.from(digest).map(b => b.toString(16).padStart(2, '0')).join('')`. -/
def hexOfBytes (bs : List ℕ) : String :=
  String.join (bs.map byteToHex)

/-- The fixed input of the correctness verification pass (line 334). -/
def testInput : String := "hello world"

/-- One guarded block of the verification pass: present implementations
contribute a `(label, match)` line, absent ones nothing. -/
def verifySlot (ref : String) (key : String) : Option HashFn →
    List (String × Bool)
  | some f => [(key, hexOfBytes (f testInput) == ref)]
  | none => []

/-- The correctness verification pass (lines 329-373): the reference hex
digest comes from `b3jsHash`, then each available one-shot slot is
compared by string equality of renderings, in source order. -/
def verifyEntries (reg : Registry) : List (String × Bool) :=
  let ref := hexOfBytes (reg.b3jsHash testInput)
  verifySlot ref "blake3-js" reg.blake3jsHash ++
    verifySlot ref "blake3" reg.blake3Hash ++
      verifySlot ref "blake3-fast" reg.blake3FastHash ++
        verifySlot ref "blake3-numi2" reg.blake3Numi2Hash ++
          verifySlot ref "blake3-optimized" reg.blake3OptimizedHash ++
            verifySlot ref "bk3js" reg.bk3jsHash

/-- The whole of `runBenchmarks` after loading (lines 202-383): the four
one-shot test cases in order, then the streaming scenario, then the
verification pass, threading the execution state throughout. -/
def runBenchmarks {σ : Type} (now : σ → ℚ) (step : String → σ → σ)
    (reg : Registry) (s : σ) :
    List (List BenchmarkResult) × List BenchmarkResult × List (String × Bool) :=
  let cases := testCases.foldl
    (fun (acc : List (List BenchmarkResult) × σ) tc =>
      let r := runCase now step reg tc acc.2
      (acc.1 ++ [r.1], r.2)) ([], s)
  let streaming := runStreaming now step reg cases.2
  (cases.1, streaming.1, verifyEntries reg)

/-- The six optional implementations of the registry. -/
inductive ImplId where
  | blake3js | blake3 | blake3Fast | numi2 | optimized | bk3js
deriving DecidableEq, Repr

def ImplId.hashSlot : ImplId → Registry → Option HashFn
  | ImplId.blake3js, reg => reg.blake3jsHash
  | ImplId.blake3, reg => reg.blake3Hash
  | ImplId.blake3Fast, reg => reg.blake3FastHash
  | ImplId.numi2, reg => reg.blake3Numi2Hash
  | ImplId.optimized, reg => reg.blake3OptimizedHash
  | ImplId.bk3js, reg => reg.bk3jsHash

def ImplId.streamSlot : ImplId → Registry → Bool
  | ImplId.blake3js, reg => reg.blake3jsCreateHasher
  | ImplId.blake3, reg => reg.blake3CreateHasher
  | ImplId.blake3Fast, reg => reg.blake3FastCreateHasher
  | _, _ => false

/-- The name the one-shot benchmark of each implementation carries. -/
def ImplId.benchName : ImplId → String
  | ImplId.blake3js => "blake3-js"
  | ImplId.blake3 => "blake3 (Rust/WASM)"
  | ImplId.blake3Fast => "blake3-fast (WASM SIMD)"
  | ImplId.numi2 => "blake3-numi2"
  | ImplId.optimized => "blake3-optimized"
  | ImplId.bk3js => "bk3js"

/-- The name the streaming benchmark of each implementation would carry
(only three implementations have a streaming block in the source). -/
def ImplId.streamBenchName : ImplId → Option String
  | ImplId.blake3js => some "blake3-js (streaming)"
  | ImplId.blake3 => some "blake3 (streaming)"
  | ImplId.blake3Fast => some "blake3-fast (streaming)"
  | _ => none

/-- The label of each implementation in the verification report. -/
def ImplId.key : ImplId → String
  | ImplId.blake3js => "blake3-js"
  | ImplId.blake3 => "blake3"
  | ImplId.blake3Fast => "blake3-fast"
  | ImplId.numi2 => "blake3-numi2"
  | ImplId.optimized => "blake3-optimized"
  | ImplId.bk3js => "bk3js"

/-- A failed load attempt leaves every slot of the implementation null
(each `try` block of lines 28-144 either sets all its slots or none). -/
def loadFailed (i : ImplId) (reg : Registry) : Prop :=
  i.hashSlot reg = none ∧ i.streamSlot reg = false

/-- Outcome of each `await import(...)` attempt. -/
structure LoadAttempts where
  blake3js : Except String HashFn
  blake3 : Except String HashFn
  blake3Fast : Except String HashFn
  numi2 : Except String HashFn
  optimized : Except String HashFn
  bk3js : Except String HashFn

/-- `loadImplementations` (lines 28-144): every attempt is isolated by its
own `try`/`catch`, so the function is total — a failure leaves that
implementation's slots null and touches nothing else. -/
def loadImplementations (b3 : HashFn) (att : LoadAttempts) : Registry :=
  { b3jsHash := b3
    blake3jsHash := att.blake3js.toOption
    blake3jsCreateHasher := att.blake3js.toOption.isSome
    blake3Hash := att.blake3.toOption
    blake3CreateHasher := att.blake3.toOption.isSome
    blake3FastHash := att.blake3Fast.toOption
    blake3FastCreateHasher := att.blake3Fast.toOption.isSome
    blake3Numi2Hash := att.numi2.toOption
    blake3OptimizedHash := att.optimized.toOption
    bk3jsHash := att.bk3js.toOption }

/-- The entry line `runBenchmarks().catch(console.error)` (line 385) under
Node semantics: a rejection of the returned promise is handled by the
`.catch` callback, which logs it via `console.error`; with the rejection
handled, nothing sets a non-zero exit code, so the process terminates
with exit code 0 either way.  The result is (logged error, exit code). -/
def mainEntry (run : Except String Unit) : Option String × ℕ :=
  match run with
  | Except.ok _ => (none, 0)
  | Except.error e => (some e, 0)

/-! ### Helper lemmas -/

lemma foldl_range_iterate {σ : Type} (fn : σ → σ) :
    ∀ (k : ℕ) (s : σ), (List.range k).foldl (fun t _ => fn t) s = fn^[k] s := by
  intro k
  induction k with
  | zero => intro s; rfl
  | succ n ih =>
    intro s
    rw [List.range_succ, List.foldl_append, ih, Function.iterate_succ_apply']
    rfl

lemma jsDiv_fin_fin (a b : ℚ) (h : b ≠ 0) :
    jsDiv (JSNum.fin a) (JSNum.fin b) = JSNum.fin (a / b) := by
  simp [jsDiv, h]

lemma jsMul_fin_fin (a b : ℚ) :
    jsMul (JSNum.fin a) (JSNum.fin b) = JSNum.fin (a * b) := rfl

lemma benchmark_state_total {σ : Type} (now : σ → ℚ) (fn : σ → σ)
    (name : String) (N : ℕ) (s : σ) :
    (benchmark now fn name N s).2 = fn^[N] (fn^[min 10 N] s) ∧
    (benchmark now fn name N s).1.total =
      now (fn^[N] (fn^[min 10 N] s)) - now (fn^[min 10 N] s) ∧
    (benchmark now fn name N s).1.ops = N := by
  unfold benchmark
  simp [foldl_range_iterate]

lemma benchmark_fields {σ : Type} (now : σ → ℚ) (fn : σ → σ) (name : String)
    (N : ℕ) (s : σ) :
    (benchmark now fn name N s).1.name = name ∧
    (benchmark now fn name N s).1.avg =
      jsDiv (JSNum.fin (benchmark now fn name N s).1.total) (JSNum.fin (N : ℚ)) ∧
    (benchmark now fn name N s).1.throughput =
      jsMul (jsDiv (JSNum.fin (N : ℚ)) (JSNum.fin (benchmark now fn name N s).1.total))
        (JSNum.fin 1000) ∧
    (benchmark now fn name N s).1.ops = N := by
  exact ⟨rfl, rfl, rfl, rfl⟩

/-! ### C2, C3, C4, C6 -/

/-- C2: contrary to the spec's invariant, a zero measured elapsed time is
divided into: with a clock that does not advance over the 1000-iteration
timed loop, `benchmark` computes `throughput = (1000 / 0) * 1000 = +∞`
and `formatResult` puts that raw `Infinity` value in the ops/sec column
(its clamped `mbps` value is computed but never used in the output
string).  The throughput is not treated as zero. -/
theorem benchmark_zero_elapsed_infinite_throughput :
    (benchmark (fun _ : Unit => (0 : ℚ)) (fun u => u) "b3js" 1000 ()).1.total = 0 ∧
    (benchmark (fun _ : Unit => (0 : ℚ)) (fun u => u) "b3js" 1000 ()).1.throughput =
      JSNum.posInf ∧
    (formatResult (benchmark (fun _ : Unit => (0 : ℚ)) (fun u => u) "b3js" 1000 ()).1).opsPerSec =
      JSNum.posInf := by
  have h := benchmark_state_total (fun _ : Unit => (0 : ℚ)) (fun u => u) "b3js" 1000 ()
  have htot : (benchmark (fun _ : Unit => (0 : ℚ)) (fun u => u) "b3js" 1000 ()).1.total = 0 := by
    rw [h.2.1]; ring
  obtain ⟨-, -, hthr, -⟩ :=
    benchmark_fields (fun _ : Unit => (0 : ℚ)) (fun u => u) "b3js" 1000 ()
  have hops : (formatResult (benchmark (fun _ : Unit => (0 : ℚ)) (fun u => u) "b3js" 1000 ()).1).opsPerSec =
      (benchmark (fun _ : Unit => (0 : ℚ)) (fun u => u) "b3js" 1000 ()).1.throughput := rfl
  refine ⟨htot, ?_, ?_⟩
  · rw [hthr, htot]; norm_num [jsDiv, jsMul]
  · rw [hops, hthr, htot]; norm_num [jsDiv, jsMul]

/-- C3: for a measured `totalTimeMs = T > 0` and `iterations = N > 0`, the
returned record satisfies `avg = T / N`, `throughput = N / T * 1000` and
`ops = N` exactly, as rational identities. -/
theorem benchmark_formulas {σ : Type} (now : σ → ℚ) (fn : σ → σ)
    (name : String) (N : ℕ) (s : σ)
    (hT : 0 < (benchmark now fn name N s).1.total) (hN : 0 < N) :
    (benchmark now fn name N s).1.avg =
      JSNum.fin ((benchmark now fn name N s).1.total / (N : ℚ)) ∧
    (benchmark now fn name N s).1.throughput =
      JSNum.fin ((N : ℚ) / (benchmark now fn name N s).1.total * 1000) ∧
    (benchmark now fn name N s).1.ops = N := by
  have hNq : (N : ℚ) ≠ 0 := Nat.cast_ne_zero.mpr hN.ne'
  have hTq : (benchmark now fn name N s).1.total ≠ 0 := ne_of_gt hT
  obtain ⟨-, havg, hthr, hops⟩ := benchmark_fields now fn name N s
  refine ⟨?_, ?_, hops⟩
  · rw [havg, jsDiv_fin_fin _ _ hNq]
  · rw [hthr, jsDiv_fin_fin _ _ hTq, jsMul_fin_fin]

lemma succ_iterate_eq (k : ℕ) : ∀ s : ℕ, Nat.succ^[k] s = s + k := by
  induction k with
  | zero => intro s; rfl
  | succ n ih =>
    intro s
    rw [Function.iterate_succ_apply', ih]
    omega

lemma benchmark_nat_clock_total (N s : ℕ) (name : String) :
    (benchmark (fun n : ℕ => (n : ℚ)) Nat.succ name N s).1.total = (N : ℚ) := by
  have h := benchmark_state_total (fun n : ℕ => (n : ℚ)) Nat.succ name N s
  rw [h.2.1, succ_iterate_eq, succ_iterate_eq]
  push_cast
  ring

/-- Witness for C3 at a concrete run: the clock is the iteration counter
itself, so the five-iteration timed loop lasts exactly 5 ms. -/
theorem benchmark_formulas_witness :
    0 < (benchmark (fun n : ℕ => (n : ℚ)) Nat.succ "b3js" 5 0).1.total ∧
    0 < 5 ∧
    (benchmark (fun n : ℕ => (n : ℚ)) Nat.succ "b3js" 5 0).1.ops = 5 :=
  ⟨by rw [benchmark_nat_clock_total]; norm_num, by decide,
    (benchmark_formulas (fun n : ℕ => (n : ℚ)) Nat.succ "b3js" 5 0
      (by rw [benchmark_nat_clock_total]; norm_num) (by decide)).2.2⟩

/-- C4: the timed runner first applies the operation `min 10 N` times
(warmup), reads the clock, applies it exactly `N` further times, reads
the clock again, and the returned total is the clock difference across
only the timed loop — the warmup happens strictly before the first clock
reading. -/
theorem benchmark_warmup_and_timing {σ : Type} (now : σ → ℚ) (fn : σ → σ)
    (name : String) (N : ℕ) (s : σ) :
    (benchmark now fn name N s).2 = fn^[N] (fn^[min 10 N] s) ∧
    (benchmark now fn name N s).1.total =
      now (fn^[N] (fn^[min 10 N] s)) - now (fn^[min 10 N] s) ∧
    (benchmark now fn name N s).1.ops = N :=
  benchmark_state_total now fn name N s

/-- C6: the comparator on an empty result list is a no-op: it returns
before any computation and produces no report. -/
theorem compareResults_empty_noop :
    compareResults [] = none := rfl

/-! ### The fastest-selection reduce (lines 185, 191-198) -/

/-- Rational throughput of a result (meaningful when it is finite). -/
def thrQ (r : BenchmarkResult) : ℚ := toQ r.throughput

lemma jsGt_of_fin (x y : JSNum) (hx : x.isFinB = true) (hy : y.isFinB = true) :
    jsGt x y = decide (toQ y < toQ x) := by
  cases x <;> cases y <;> simp_all [JSNum.isFinB, jsGt, toQ]

/-- On finite throughputs the reduce of line 185 is the rational-valued
reduce. -/
lemma reduceAux_fin_eq (t : List BenchmarkResult) :
    ∀ (j : ℕ) (acc : ℕ × BenchmarkResult),
      acc.2.throughput.isFinB = true →
      (∀ r ∈ t, r.throughput.isFinB = true) →
      reduceAux (fun a b => jsGt a.throughput b.throughput) t j acc =
        reduceAux (fun a b => decide (thrQ b < thrQ a)) t j acc := by
  induction t with
  | nil => intro j acc _ _; rfl
  | cons b t ih =>
    intro j acc hacc hall
    have hb : b.throughput.isFinB = true := hall b (List.mem_cons_self b t)
    have hcond : jsGt acc.2.throughput b.throughput =
        decide (thrQ b < thrQ acc.2) :=
      jsGt_of_fin _ _ hacc hb
    simp only [reduceAux, hcond]
    by_cases h : thrQ b < thrQ acc.2
    · rw [if_pos (by simp [h])]
      exact ih (j + 1) acc hacc (fun r hr => hall r (List.mem_cons_of_mem b hr))
    · rw [if_neg (by simp [h])]
      exact ih (j + 1) (j, b) hb (fun r hr => hall r (List.mem_cons_of_mem b hr))

/-- What the index-tracked rational reduce computes: a maximal element,
and the last index attaining the maximum. -/
lemma reduceAux_last_max {α : Type} (g : α → ℚ) (t : List α) :
    ∀ (j i : ℕ) (a : α), i < j →
      ∃ i2 a2,
        reduceAux (fun p q => decide (g q < g p)) t j (i, a) = (i2, a2) ∧
        ((i2 = i ∧ a2 = a) ∨
          ∃ k, ∃ hk : k < t.length, i2 = j + k ∧ a2 = t[k]) ∧
        g a ≤ g a2 ∧
        (∀ x ∈ t, g x ≤ g a2) ∧
        (∀ k, ∀ hk : k < t.length, i2 < j + k → g t[k] < g a2) := by
  induction t with
  | nil =>
    intro j i a _
    exact ⟨i, a, rfl, Or.inl ⟨rfl, rfl⟩, le_refl _, by simp, by simp⟩
  | cons b t ih =>
    intro j i a hij
    by_cases hgb : g b < g a
    · have hstep : reduceAux (fun p q => decide (g q < g p)) (b :: t) j (i, a) =
          reduceAux (fun p q => decide (g q < g p)) t (j + 1) (i, a) := by
        simp [reduceAux, hgb]
      obtain ⟨i2, a2, heq, horig, hle, hall, hlast⟩ :=
        ih (j + 1) i a (Nat.lt_succ_of_lt hij)
      refine ⟨i2, a2, hstep.trans heq, ?_, hle, ?_, ?_⟩
      · rcases horig with h | ⟨k, hk, hik, hak⟩
        · exact Or.inl h
        · exact Or.inr ⟨k + 1, Nat.succ_lt_succ hk, by omega, by simpa using hak⟩
      · intro x hx
        rcases List.mem_cons.mp hx with h | h
        · exact h ▸ (hgb.le.trans hle)
        · exact hall x h
      · intro k hk hik
        match k with
        | 0 =>
          have : g b < g a2 := lt_of_lt_of_le hgb hle
          simpa using this
        | k + 1 =>
          have := hlast k (Nat.lt_of_succ_lt_succ hk) (by omega)
          simpa using this
    · have hstep : reduceAux (fun p q => decide (g q < g p)) (b :: t) j (i, a) =
          reduceAux (fun p q => decide (g q < g p)) t (j + 1) (j, b) := by
        simp [reduceAux, hgb]
      obtain ⟨i2, a2, heq, horig, hle, hall, hlast⟩ :=
        ih (j + 1) j b (Nat.lt_succ_self j)
      have hab : g a ≤ g b := le_of_not_lt hgb
      refine ⟨i2, a2, hstep.trans heq, ?_, hab.trans hle, ?_, ?_⟩
      · rcases horig with ⟨hij2, hab2⟩ | ⟨k, hk, hik, hak⟩
        · exact Or.inr ⟨0, by simp, by omega, by simpa using hab2⟩
        · exact Or.inr ⟨k + 1, Nat.succ_lt_succ hk, by omega, by simpa using hak⟩
      · intro x hx
        rcases List.mem_cons.mp hx with h | h
        · exact h ▸ hle
        · exact hall x h
      · intro k hk hik
        match k with
        | 0 =>
          have : j ≤ i2 := by
            rcases horig with h | ⟨k2, hk2, hik2, -⟩
            · omega
            · omega
          omega
        | k + 1 =>
          have := hlast k (Nat.lt_of_succ_lt_succ hk) (by omega)
          simpa using this

/-- Full specification of the fastest-selection reduce on a non-empty
list of finite-throughput results: it returns an element of the list, of
maximal throughput, at the greatest index attaining that maximum. -/
lemma fastestEntry_spec (results : List BenchmarkResult)
    (hne : results ≠ [])
    (hfin : ∀ r ∈ results, r.throughput.isFinB = true) :
    ∃ fi fr, fastestEntry results = some (fi, fr) ∧
      ∃ hfi : fi < results.length, results[fi] = fr ∧
      (∀ j, ∀ hj : j < results.length, thrQ results[j] ≤ thrQ fr) ∧
      (∀ j, ∀ hj : j < results.length, fi < j → thrQ results[j] < thrQ fr) := by
  match results with
  | [] => exact absurd rfl hne
  | x :: xs =>
    have hx : x.throughput.isFinB = true := hfin x (List.mem_cons_self x xs)
    have hxs : ∀ r ∈ xs, r.throughput.isFinB = true :=
      fun r hr => hfin r (List.mem_cons_of_mem x hr)
    have htrans := reduceAux_fin_eq xs 1 (0, x) hx hxs
    obtain ⟨i2, a2, heq, horig, hle, hall, hlast⟩ :=
      reduceAux_last_max thrQ xs 1 0 x Nat.zero_lt_one
    refine ⟨i2, a2, ?_, ?_⟩
    · simp only [fastestEntry, htrans, heq]
    · have hfi : i2 < (x :: xs).length := by
        rcases horig with h | ⟨k, hk, hik, -⟩
        · simp [h.1]
        · simp only [List.length_cons]; omega
      refine ⟨hfi, ?_, ?_, ?_⟩
      · rcases horig with ⟨h1, h2⟩ | ⟨k, hk, hik, hak⟩
        · subst h1; simpa using h2.symm
        · subst hik
          simpa [Nat.add_comm] using hak.symm
      · intro j hj
        match j with
        | 0 => simpa using hle
        | j + 1 =>
          have hj2 : j < xs.length := by simpa using hj
          have := hall xs[j] (List.getElem_mem hj2)
          simpa using this
      · intro j hj hij
        match j with
        | 0 => omega
        | j + 1 =>
          have hj2 : j < xs.length := by simpa using hj
          have := hlast j hj2 (by omega)
          simpa using this

/-- C1 counterexample input: two results with exactly tied throughput. -/
def tieA : BenchmarkResult :=
  { name := "A", total := 1, avg := JSNum.fin 1, throughput := JSNum.fin 1, ops := 1 }

def tieB : BenchmarkResult :=
  { name := "B", total := 1, avg := JSNum.fin 1, throughput := JSNum.fin 1, ops := 1 }

/-- C1 counterexample: on an exact throughput tie the reduce of line 185
keeps the accumulator only when it is strictly greater, so the SECOND of
two tied results is selected (index 1), not the first as the claim
states. -/
theorem fastest_tie_selects_second :
    tieA.throughput = tieB.throughput ∧
    fastestEntry [tieA, tieB] = some (1, tieB) := by
  constructor
  · rfl
  · decide

/-- C1 (amended): on finite throughputs the comparator selects a result
of maximal throughput, and among exactly tied maxima the one occurring
LAST in input order (every later entry is strictly slower); a unique
maximum is therefore selected as fastest. -/
theorem fastest_is_last_max (results : List BenchmarkResult)
    (hne : results ≠ [])
    (hfin : ∀ r ∈ results, r.throughput.isFinB = true) :
    ∃ fi fr, fastestEntry results = some (fi, fr) ∧
      ∃ hfi : fi < results.length, results[fi] = fr ∧
      (∀ j, ∀ hj : j < results.length, thrQ results[j] ≤ thrQ fr) ∧
      (∀ j, ∀ hj : j < results.length, fi < j → thrQ results[j] < thrQ fr) :=
  fastestEntry_spec results hne hfin

/-- Witness for C1 (amended) on the tied pair: hypotheses hold and the
amended statement follows by applying the theorem. -/
theorem fastest_is_last_max_witness :
    [tieA, tieB] ≠ [] ∧
    (∀ r ∈ [tieA, tieB], r.throughput.isFinB = true) ∧
    (∃ fi fr, fastestEntry [tieA, tieB] = some (fi, fr) ∧
      ∃ hfi : fi < ([tieA, tieB] : List BenchmarkResult).length,
        ([tieA, tieB] : List BenchmarkResult)[fi] = fr ∧
        (∀ j, ∀ hj : j < ([tieA, tieB] : List BenchmarkResult).length,
          thrQ ([tieA, tieB] : List BenchmarkResult)[j] ≤ thrQ fr) ∧
        (∀ j, ∀ hj : j < ([tieA, tieB] : List BenchmarkResult).length,
          fi < j → thrQ ([tieA, tieB] : List BenchmarkResult)[j] < thrQ fr)) :=
  ⟨by decide, by decide, fastest_is_last_max [tieA, tieB] (by decide) (by decide)⟩

/-! ### The comparison table (C5) -/

lemma enumFrom_length {α : Type} (i : ℕ) (l : List α) :
    (enumFrom i l).length = l.length := by
  induction l generalizing i with
  | nil => rfl
  | cons a t ih => simp [enumFrom, ih]

lemma enumFrom_getElem {α : Type} :
    ∀ (l : List α) (i j : ℕ) (hj : j < l.length)
      (hj2 : j < (enumFrom i l).length),
      (enumFrom i l)[j] = (i + j, l[j]) := by
  intro l
  induction l with
  | nil => intro i j hj _; simp at hj
  | cons a t ih =>
    intro i j hj hj2
    match j with
    | 0 => simp [enumFrom]
    | j + 1 =>
      have hj3 : j < t.length := by simpa using hj
      have hj4 : j < (enumFrom (i + 1) t).length := by
        rw [enumFrom_length]; exact hj3
      have := ih (i + 1) j hj3 hj4
      simp only [enumFrom, List.getElem_cons_succ, this]
      congr 1
      omega

lemma map_enumFrom_getElem {α β : Type} (f : ℕ × α → β) (l : List α)
    (j : ℕ) (hj : j < l.length)
    (hj2 : j < ((enumFrom 0 l).map f).length) :
    ((enumFrom 0 l).map f)[j] = f (j, l[j]) := by
  rw [List.getElem_map, enumFrom_getElem l 0 j hj]
  rw [Nat.zero_add]

lemma compareResults_eq (x : BenchmarkResult) (xs : List BenchmarkResult)
    (fi : ℕ) (fr : BenchmarkResult)
    (h : reduceAux (fun a b => jsGt a.throughput b.throughput) xs 1 (0, x) =
      (fi, fr)) :
    compareResults (x :: xs) = some ((enumFrom 0 (x :: xs)).map (fun p =>
      { name := p.2.name
        relative := if jsGt p.2.throughput (JSNum.fin 0) then
            some (jsMul (jsDiv p.2.throughput fr.throughput) (JSNum.fin 100))
          else none
        speedup := if jsGt p.2.throughput (JSNum.fin 0) then
            some (jsDiv fr.throughput p.2.throughput)
          else none
        fastestMark := p.1 == fi })) := by
  simp only [compareResults, h]

/-- C5 counterexample input: a single result whose throughput is 0. -/
def zResult : BenchmarkResult :=
  { name := "z", total := 0, avg := JSNum.fin 0, throughput := JSNum.fin 0, ops := 5 }

def zEntry : CompEntry :=
  { name := "z", relative := none, speedup := none, fastestMark := true }

/-- C5 counterexample: for the one-element sequence `[zResult]` with
throughput 0 the comparator still selects it as fastest (it gets the
marker), but its relative and speedup columns are the `N/A` branch
(`none`), not 100% and 1.00 as the claim requires of the selected
fastest result. -/
theorem compare_zero_throughput_not_100 :
    compareResults [zResult] = some [zEntry] := by
  decide

/-- C5 (amended): for every non-empty sequence of results whose
throughputs are all finite and strictly positive, the comparator marks
exactly one entry as fastest; that entry's relative percentage is
exactly 100 and its speedup factor exactly 1, every entry's relative
percentage is at most 100, and every entry's speedup factor is at
least 1. -/
theorem compare_table_correct (results : List BenchmarkResult)
    (hne : results ≠ [])
    (hpos : ∀ r ∈ results, ∃ q : ℚ, r.throughput = JSNum.fin q ∧ 0 < q) :
    ∃ entries fi, compareResults results = some entries ∧
      entries.length = results.length ∧
      fi < entries.length ∧
      (∀ j, ∀ hj : j < entries.length,
        ((entries[j].fastestMark = true) ↔ j = fi)) ∧
      (∀ j, ∀ hj : j < entries.length,
        ∃ p sp : ℚ,
          entries[j].relative = some (JSNum.fin p) ∧ p ≤ 100 ∧
          entries[j].speedup = some (JSNum.fin sp) ∧ 1 ≤ sp ∧
          (j = fi → p = 100 ∧ sp = 1)) := by
  have hfin : ∀ r ∈ results, r.throughput.isFinB = true := by
    intro r hr
    obtain ⟨q, hq, -⟩ := hpos r hr
    simp [hq, JSNum.isFinB]
  obtain ⟨fi, fr, hfe, hfi, hget, hmax, -⟩ :=
    fastestEntry_spec results hne hfin
  obtain ⟨x, xs, rfl⟩ : ∃ x xs, results = x :: xs := by
    cases results with
    | nil => exact absurd rfl hne
    | cons x xs => exact ⟨x, xs, rfl⟩
  have hred : reduceAux (fun a b => jsGt a.throughput b.throughput) xs 1 (0, x) =
      (fi, fr) := by
    simpa [fastestEntry] using hfe
  rw [compareResults_eq x xs fi fr hred]
  have hfr : fr ∈ x :: xs := hget ▸ List.getElem_mem hfi
  obtain ⟨qf, hqf, hqfpos⟩ := hpos fr hfr
  have hlen : ((enumFrom 0 (x :: xs)).map (fun p : ℕ × BenchmarkResult =>
      ({ name := p.2.name
         relative := if jsGt p.2.throughput (JSNum.fin 0) then
             some (jsMul (jsDiv p.2.throughput fr.throughput) (JSNum.fin 100))
           else none
         speedup := if jsGt p.2.throughput (JSNum.fin 0) then
             some (jsDiv fr.throughput p.2.throughput)
           else none
         fastestMark := p.1 == fi } : CompEntry))).length = (x :: xs).length := by
    rw [List.length_map, enumFrom_length]
  refine ⟨_, fi, rfl, hlen, ?_, ?_, ?_⟩
  · rw [hlen]; exact hfi
  · intro j hj
    have hj2 : j < (x :: xs).length := by rw [← hlen]; exact hj
    rw [map_enumFrom_getElem _ _ j hj2 hj]
    simp
  · intro j hj
    have hj2 : j < (x :: xs).length := by rw [← hlen]; exact hj
    rw [map_enumFrom_getElem _ _ j hj2 hj]
    obtain ⟨q, hq, hqpos⟩ := hpos ((x :: xs)[j]) (List.getElem_mem hj2)
    have hqle : q ≤ qf := by
      have := hmax j hj2
      simpa [thrQ, toQ, hq, hqf] using this
    have hgt : jsGt (JSNum.fin q) (JSNum.fin 0) = true := by
      simp [jsGt, hqpos]
    refine ⟨q / qf * 100, qf / q, ?_, ?_, ?_, ?_, ?_⟩
    · simp [hq, hqf, hgt, jsDiv_fin_fin q qf (ne_of_gt hqfpos), jsMul_fin_fin]
    · have h1 : q / qf ≤ 1 := (div_le_one hqfpos).mpr hqle
      have := mul_le_mul_of_nonneg_right h1 (by norm_num : (0:ℚ) ≤ 100)
      simpa using this
    · simp [hq, hqf, hgt, jsDiv_fin_fin qf q (ne_of_gt hqpos)]
    · exact (one_le_div hqpos).mpr hqle
    · intro hjfi
      subst hjfi
      have hxfr : (x :: xs)[j] = fr := hget
      have hqq : q = qf := by
        have h1 : JSNum.fin q = JSNum.fin qf := by
          rw [← hq, ← hqf, hxfr]
        exact JSNum.fin.injEq q qf ▸ congrArg toQ h1
      constructor
      · rw [hqq, div_self (ne_of_gt hqfpos)]; norm_num
      · rw [hqq, div_self (ne_of_gt hqfpos)]

/-- C5 witness inputs: two results with positive finite throughputs. -/
def wFast : BenchmarkResult :=
  { name := "A", total := 1, avg := JSNum.fin 1, throughput := JSNum.fin 2, ops := 1 }

def wSlow : BenchmarkResult :=
  { name := "B", total := 2, avg := JSNum.fin 2, throughput := JSNum.fin 1, ops := 1 }

/-- Witness for C5 (amended) on the concrete two-result table
`[wFast, wSlow]` with positive finite throughputs 2 and 1. -/
theorem compare_table_correct_witness :
    ([wFast, wSlow] : List BenchmarkResult) ≠ [] ∧
    (∀ r ∈ ([wFast, wSlow] : List BenchmarkResult),
      ∃ q : ℚ, r.throughput = JSNum.fin q ∧ 0 < q) ∧
    (∃ entries fi, compareResults [wFast, wSlow] = some entries ∧
      entries.length = ([wFast, wSlow] : List BenchmarkResult).length ∧
      fi < entries.length ∧
      (∀ j, ∀ hj : j < entries.length,
        ((entries[j].fastestMark = true) ↔ j = fi)) ∧
      (∀ j, ∀ hj : j < entries.length,
        ∃ p sp : ℚ,
          entries[j].relative = some (JSNum.fin p) ∧ p ≤ 100 ∧
          entries[j].speedup = some (JSNum.fin sp) ∧ 1 ≤ sp ∧
          (j = fi → p = 100 ∧ sp = 1))) := by
  have hq : ∀ r ∈ ([wFast, wSlow] : List BenchmarkResult),
      ∃ q : ℚ, r.throughput = JSNum.fin q ∧ 0 < q := by
    intro r hr
    rcases List.mem_cons.mp hr with h | h
    · exact ⟨2, by rw [h, wFast], by norm_num⟩
    · rcases List.mem_cons.mp h with h2 | h2
      · exact ⟨1, by rw [h2, wSlow], by norm_num⟩
      · simp at h2
  exact ⟨by decide, hq, compare_table_correct _ (by decide) hq⟩

/-! ### Scheduling of implementations by the driver (C7, C10) -/

lemma benchmark_name {σ : Type} (now : σ → ℚ) (fn : σ → σ) (name : String)
    (N : ℕ) (s : σ) : (benchmark now fn name N s).1.name = name := rfl

lemma benchPush_names {σ : Type} (now : σ → ℚ) (step : String → σ → σ)
    (avail : Bool) (name : String) (iters : ℕ)
    (x : List BenchmarkResult × σ) :
    (benchPush now step avail name iters x).1.map (fun r => r.name) =
      x.1.map (fun r => r.name) ++ (if avail then [name] else []) := by
  rcases x with ⟨acc, s⟩
  cases avail <;> simp [benchPush, benchmark_name]

lemma runCase_names {σ : Type} (now : σ → ℚ) (step : String → σ → σ)
    (reg : Registry) (tc : TestCase) (s : σ) :
    (runCase now step reg tc s).1.map (fun r => r.name) =
      ["b3js"] ++
      (if reg.blake3jsHash.isSome then ["blake3-js"] else []) ++
      (if reg.blake3Hash.isSome then ["blake3 (Rust/WASM)"] else []) ++
      (if reg.blake3FastHash.isSome then ["blake3-fast (WASM SIMD)"] else []) ++
      (if reg.blake3Numi2Hash.isSome then ["blake3-numi2"] else []) ++
      (if reg.blake3OptimizedHash.isSome then ["blake3-optimized"] else []) ++
      (if reg.bk3jsHash.isSome then ["bk3js"] else []) := by
  simp [runCase, benchPush_names, benchmark_name]

lemma runStreaming_names {σ : Type} (now : σ → ℚ) (step : String → σ → σ)
    (reg : Registry) (s : σ) :
    (runStreaming now step reg s).1.map (fun r => r.name) =
      ["b3js (streaming)"] ++
      (if reg.blake3jsCreateHasher then ["blake3-js (streaming)"] else []) ++
      (if reg.blake3CreateHasher then ["blake3 (streaming)"] else []) ++
      (if reg.blake3FastCreateHasher then ["blake3-fast (streaming)"] else []) := by
  simp [runStreaming, benchPush_names, benchmark_name]

lemma runBenchmarks_cases_mem {σ : Type} (now : σ → ℚ)
    (step : String → σ → σ) (reg : Registry) :
    ∀ (tcs : List TestCase) (acc : List (List BenchmarkResult) × σ)
      (rs : List BenchmarkResult),
      rs ∈ (tcs.foldl (fun acc tc =>
        let r := runCase now step reg tc acc.2
        (acc.1 ++ [r.1], r.2)) acc).1 →
      rs ∈ acc.1 ∨ ∃ tc st, rs = (runCase now step reg tc st).1 := by
  intro tcs
  induction tcs with
  | nil => intro acc rs h; exact Or.inl h
  | cons tc tcs ih =>
    intro acc rs h
    simp only [List.foldl_cons] at h
    rcases ih _ rs h with h2 | h2
    · rcases List.mem_append.mp h2 with h3 | h3
      · exact Or.inl h3
      · exact Or.inr ⟨tc, acc.2, List.mem_singleton.mp h3⟩
    · exact Or.inr h2

lemma runBenchmarks_fst_mem {σ : Type} (now : σ → ℚ)
    (step : String → σ → σ) (reg : Registry) (s : σ)
    (rs : List BenchmarkResult)
    (h : rs ∈ (runBenchmarks now step reg s).1) :
    ∃ tc st, rs = (runCase now step reg tc st).1 := by
  rcases runBenchmarks_cases_mem now step reg testCases ([], s) rs
      (by simpa [runBenchmarks] using h) with h2 | h2
  · simp at h2
  · exact h2

lemma runBenchmarks_streaming {σ : Type} (now : σ → ℚ)
    (step : String → σ → σ) (reg : Registry) (s : σ) :
    ∃ st, (runBenchmarks now step reg s).2.1 = (runStreaming now step reg st).1 :=
  ⟨_, rfl⟩

lemma runBenchmarks_verify {σ : Type} (now : σ → ℚ)
    (step : String → σ → σ) (reg : Registry) (s : σ) :
    (runBenchmarks now step reg s).2.2 = verifyEntries reg := rfl

lemma mem_ite_singleton {α : Type} (a b : α) (c : Bool) :
    (a ∈ if c then [b] else []) ↔ c = true ∧ a = b := by
  cases c <;> simp

lemma verifySlot_keys (ref key : String) (o : Option HashFn) :
    (verifySlot ref key o).map Prod.fst = if o.isSome then [key] else [] := by
  cases o <;> rfl

lemma verifyEntries_keys (reg : Registry) :
    (verifyEntries reg).map Prod.fst =
      (if reg.blake3jsHash.isSome then ["blake3-js"] else []) ++
      (if reg.blake3Hash.isSome then ["blake3"] else []) ++
      (if reg.blake3FastHash.isSome then ["blake3-fast"] else []) ++
      (if reg.blake3Numi2Hash.isSome then ["blake3-numi2"] else []) ++
      (if reg.blake3OptimizedHash.isSome then ["blake3-optimized"] else []) ++
      (if reg.bk3jsHash.isSome then ["bk3js"] else []) := by
  simp [verifyEntries, verifySlot_keys]

/-- C7: an implementation whose load attempt failed (both its slots left
null) is never scheduled: its benchmark name appears in none of the
one-shot result sequences of any test case, its streaming benchmark name
(when it has a streaming block at all) never appears in the streaming
results, and its label is absent from the correctness-verification
report.  All the functions involved are total, so its absence cannot
crash the run. -/
theorem unavailable_impl_never_scheduled (i : ImplId) {σ : Type}
    (now : σ → ℚ) (step : String → σ → σ) (reg : Registry) (s : σ)
    (h : loadFailed i reg) :
    (∀ rs ∈ (runBenchmarks now step reg s).1,
      i.benchName ∉ rs.map (fun r => r.name)) ∧
    (∀ nm, i.streamBenchName = some nm →
      nm ∉ (runBenchmarks now step reg s).2.1.map (fun r => r.name)) ∧
    i.key ∉ (runBenchmarks now step reg s).2.2.map Prod.fst := by
  obtain ⟨h1, h2⟩ := h
  refine ⟨?_, ?_, ?_⟩
  · intro rs hrs
    obtain ⟨tc, st, rfl⟩ := runBenchmarks_fst_mem now step reg s rs hrs
    rw [runCase_names]
    cases i <;>
      simp_all [ImplId.hashSlot, ImplId.benchName, mem_ite_singleton]
  · obtain ⟨st, heq⟩ := runBenchmarks_streaming now step reg s
    rw [heq]
    cases i <;> intro nm hnm <;> cases hnm <;>
      rw [runStreaming_names] <;>
      simp_all [ImplId.streamSlot, mem_ite_singleton]
  · rw [runBenchmarks_verify, verifyEntries_keys]
    cases i <;>
      simp_all [ImplId.hashSlot, ImplId.key, mem_ite_singleton]

/-- C7 witness registry: every optional implementation failed to load. -/
def failReg : Registry :=
  { b3jsHash := fun _ => []
    blake3jsHash := none
    blake3jsCreateHasher := false
    blake3Hash := none
    blake3CreateHasher := false
    blake3FastHash := none
    blake3FastCreateHasher := false
    blake3Numi2Hash := none
    blake3OptimizedHash := none
    bk3jsHash := none }

/-- Witness for C7: `blake3-js` failed to load in `failReg`, and the
theorem's conclusions hold for a concrete run. -/
theorem unavailable_impl_never_scheduled_witness :
    loadFailed ImplId.blake3js failReg ∧
    ((∀ rs ∈ (runBenchmarks (fun _ : Unit => (0 : ℚ)) (fun _ u => u) failReg ()).1,
        ImplId.blake3js.benchName ∉ rs.map (fun r => r.name)) ∧
     (∀ nm, ImplId.blake3js.streamBenchName = some nm →
        nm ∉ (runBenchmarks (fun _ : Unit => (0 : ℚ)) (fun _ u => u) failReg ()).2.1.map
          (fun r => r.name)) ∧
     ImplId.blake3js.key ∉
        (runBenchmarks (fun _ : Unit => (0 : ℚ)) (fun _ u => u) failReg ()).2.2.map Prod.fst) :=
  ⟨⟨rfl, rfl⟩,
    unavailable_impl_never_scheduled ImplId.blake3js
      (fun _ : Unit => (0 : ℚ)) (fun _ u => u) failReg () ⟨rfl, rfl⟩⟩

lemma compareResults_isSome (results : List BenchmarkResult)
    (h : results ≠ []) : (compareResults results).isSome = true := by
  cases results with
  | nil => exact absurd rfl h
  | cons x xs => simp [compareResults]

/-- C10: the `b3js` reference implementation is benchmarked
unconditionally: every one-shot result sequence of every test case
contains a result named `b3js`, the streaming result sequence contains
one named `b3js (streaming)`, and every such sequence is therefore
non-empty, so the comparator produces a report for each. -/
theorem b3js_always_benchmarked {σ : Type} (now : σ → ℚ)
    (step : String → σ → σ) (reg : Registry) (s : σ) :
    (∀ rs ∈ (runBenchmarks now step reg s).1,
      "b3js" ∈ rs.map (fun r => r.name) ∧ (compareResults rs).isSome = true) ∧
    "b3js (streaming)" ∈ (runBenchmarks now step reg s).2.1.map (fun r => r.name) ∧
    (compareResults (runBenchmarks now step reg s).2.1).isSome = true := by
  have hne : ∀ (rs : List BenchmarkResult) (nm : String) (L : List String),
      rs.map (fun r => r.name) = nm :: L → rs ≠ [] := by
    intro rs nm L hmap hnil
    rw [hnil] at hmap
    exact List.noConfusion hmap
  refine ⟨?_, ?_, ?_⟩
  · intro rs hrs
    obtain ⟨tc, st, rfl⟩ := runBenchmarks_fst_mem now step reg s rs hrs
    have hmap := runCase_names now step reg tc st
    constructor
    · rw [hmap]; simp
    · exact compareResults_isSome _ (hne _ _ _ hmap)
  · obtain ⟨st, heq⟩ := runBenchmarks_streaming now step reg s
    rw [heq, runStreaming_names]
    simp
  · obtain ⟨st, heq⟩ := runBenchmarks_streaming now step reg s
    rw [heq]
    exact compareResults_isSome _ (hne _ _ _ (runStreaming_names now step reg st))

/-- C10 witness registry: an arbitrary concrete registry. -/
def b3Reg : Registry :=
  { b3jsHash := fun _ => [0]
    blake3jsHash := none
    blake3jsCreateHasher := false
    blake3Hash := none
    blake3CreateHasher := false
    blake3FastHash := none
    blake3FastCreateHasher := false
    blake3Numi2Hash := none
    blake3OptimizedHash := none
    bk3jsHash := none }

/-- Witness for C10 at a concrete run: the streaming sequence contains
`b3js (streaming)` and the comparator produces a report for it. -/
theorem b3js_always_benchmarked_witness :
    "b3js (streaming)" ∈
      (runBenchmarks (fun _ : Unit => (0 : ℚ)) (fun _ u => u) b3Reg ()).2.1.map
        (fun r => r.name) ∧
    (compareResults
      (runBenchmarks (fun _ : Unit => (0 : ℚ)) (fun _ u => u) b3Reg ()).2.1).isSome = true :=
  (b3js_always_benchmarked (fun _ : Unit => (0 : ℚ)) (fun _ u => u) b3Reg ()).2

/-! ### Hex rendering and the verification pass (C8) -/

lemma data_mk (l : List Char) : (String.mk l).data = l := rfl

lemma length_data (s : String) : s.length = s.data.length := rfl

lemma hexDigitsRec_lt16 (b : ℕ) (h : b < 16) :
    hexDigitsRec b = [hexDigitChar b] := by
  rw [hexDigitsRec]
  simp [h]

lemma hexDigitsRec_ge16 (b : ℕ) (h1 : 16 ≤ b) (h2 : b < 256) :
    hexDigitsRec b = [hexDigitChar (b / 16), hexDigitChar (b % 16)] := by
  rw [hexDigitsRec]
  have hdiv : b / 16 < 16 := by omega
  simp [Nat.not_lt.mpr h1, hexDigitsRec_lt16 (b / 16) hdiv]

lemma hexDigitChar_mem (n : ℕ) (h : n < 16) :
    hexDigitChar n ∈ ("0123456789abcdef" : String).data := by
  interval_cases n <;> decide

lemma byteToHex_spec (b : ℕ) (h : b < 256) :
    (byteToHex b).data.length = 2 ∧
    ∀ c ∈ (byteToHex b).data, c ∈ ("0123456789abcdef" : String).data := by
  by_cases hb : b < 16
  · have hd : (byteToHex b).data = ['0', hexDigitChar b] := by
      simp [byteToHex, padStart2, toString16, hexDigitsRec_lt16 b hb,
        String.data_append, data_mk, length_data, List.replicate]
    rw [hd]
    refine ⟨rfl, ?_⟩
    intro c hc
    rcases List.mem_cons.mp hc with h1 | h1
    · subst h1; decide
    · rcases List.mem_cons.mp h1 with h2 | h2
      · subst h2; exact hexDigitChar_mem b hb
      · simp at h2
  · have hd : (byteToHex b).data = [hexDigitChar (b / 16), hexDigitChar (b % 16)] := by
      simp [byteToHex, padStart2, toString16,
        hexDigitsRec_ge16 b (Nat.not_lt.mp hb) h,
        String.data_append, data_mk, length_data]
    rw [hd]
    refine ⟨rfl, ?_⟩
    intro c hc
    rcases List.mem_cons.mp hc with h1 | h1
    · subst h1; exact hexDigitChar_mem _ (by omega)
    · rcases List.mem_cons.mp h1 with h2 | h2
      · subst h2; exact hexDigitChar_mem _ (Nat.mod_lt b (by norm_num))
      · simp at h2

lemma foldl_append_data :
    ∀ (l : List String) (a : String),
      (l.foldl (fun r s => r ++ s) a).data =
        a.data ++ (l.map String.data).flatten := by
  intro l
  induction l with
  | nil => intro a; simp
  | cons s t ih =>
    intro a
    simp only [List.foldl_cons, ih, List.map_cons, List.flatten_cons,
      String.data_append, List.append_assoc]

lemma join_data (l : List String) :
    (String.join l).data = (l.map String.data).flatten := by
  have := foldl_append_data l ""
  simpa [String.join] using this

lemma hexOfBytes_cons_data (b : ℕ) (t : List ℕ) :
    (hexOfBytes (b :: t)).data = (byteToHex b).data ++ (hexOfBytes t).data := by
  simp [hexOfBytes, join_data]

lemma hexOfBytes_spec :
    ∀ (bs : List ℕ), (∀ b ∈ bs, b < 256) →
      (hexOfBytes bs).length = 2 * bs.length ∧
      ∀ c ∈ (hexOfBytes bs).data, c ∈ ("0123456789abcdef" : String).data := by
  intro bs
  induction bs with
  | nil =>
    intro _
    constructor
    · rfl
    · intro c hc
      simp [hexOfBytes, String.join] at hc
  | cons b t ih =>
    intro h
    have hb := h b (List.mem_cons_self b t)
    obtain ⟨ihl, ihm⟩ := ih (fun x hx => h x (List.mem_cons_of_mem b hx))
    obtain ⟨hbl, hbm⟩ := byteToHex_spec b hb
    constructor
    · rw [length_data, hexOfBytes_cons_data, List.length_append, hbl,
        ← length_data, ihl]
      simp only [List.length_cons]
      ring
    · intro c hc
      rw [hexOfBytes_cons_data] at hc
      rcases List.mem_append.mp hc with h1 | h1
      · exact hbm c h1
      · exact ihm c h1

/-- C8: in the verification pass every available one-shot implementation
contributes exactly the line comparing, by string equality, the
lowercase zero-padded hex rendering of its digest of `"hello world"`
against the same rendering of the reference digest; slots without a
one-shot hash function contribute nothing; and the rendering produces
exactly 2 hex characters per byte, drawn from `0123456789abcdef`, with
no separators. -/
theorem verification_hex_and_matches (i : ImplId) (reg : Registry) :
    (∀ f, i.hashSlot reg = some f →
      (i.key, hexOfBytes (f testInput) == hexOfBytes (reg.b3jsHash testInput)) ∈
        verifyEntries reg) ∧
    (i.hashSlot reg = none → i.key ∉ (verifyEntries reg).map Prod.fst) ∧
    (∀ bs : List ℕ, (∀ b ∈ bs, b < 256) →
      (hexOfBytes bs).length = 2 * bs.length ∧
      ∀ c ∈ (hexOfBytes bs).data, c ∈ ("0123456789abcdef" : String).data) := by
  refine ⟨?_, ?_, fun bs h => hexOfBytes_spec bs h⟩
  · intro f hf
    cases i <;> simp_all [ImplId.hashSlot, ImplId.key, verifyEntries, verifySlot]
  · intro hnone
    rw [verifyEntries_keys]
    cases i <;> simp_all [ImplId.hashSlot, ImplId.key, mem_ite_singleton]

/-- C8 witness registry: `blake3-js` loaded with a digest agreeing with
the reference. -/
def vReg : Registry :=
  { b3jsHash := fun _ => [1, 171]
    blake3jsHash := some (fun _ => [1, 171])
    blake3jsCreateHasher := true
    blake3Hash := none
    blake3CreateHasher := false
    blake3FastHash := none
    blake3FastCreateHasher := false
    blake3Numi2Hash := none
    blake3OptimizedHash := none
    bk3jsHash := none }

/-- Witness for C8: the loaded `blake3-js` slot of `vReg` yields its
comparison line in the report, and the rendering facts hold on the
concrete digest `[0, 255]`. -/
theorem verification_hex_and_matches_witness :
    (("blake3-js",
        hexOfBytes ((fun _ => [1, 171]) testInput) ==
          hexOfBytes (vReg.b3jsHash testInput)) ∈ verifyEntries vReg) ∧
    ((hexOfBytes [0, 255]).length = 2 * ([0, 255] : List ℕ).length ∧
      ∀ c ∈ (hexOfBytes [0, 255]).data, c ∈ ("0123456789abcdef" : String).data) :=
  ⟨(verification_hex_and_matches ImplId.blake3js vReg).1 (fun _ => [1, 171]) rfl,
   (verification_hex_and_matches ImplId.blake3js vReg).2.2 [0, 255] (by decide)⟩

/-! ### Process exit behaviour (C9) -/

/-- C9 counterexample: when `runBenchmarks` rejects with an error, the
final `.catch(console.error)` logs it, but nothing sets a failure exit
code: the process terminates with exit code 0, not the non-zero failure
signal the claim requires. -/
theorem mainEntry_error_still_exit_zero :
    mainEntry (Except.error "boom") = (some "boom", 0) := rfl

/-- C9 (amended): any error escaping `runBenchmarks` is caught by the
final `.catch` and logged, and the process then terminates NORMALLY
(exit code 0) in every case — so load failures and correctness
mismatches indeed cannot affect the exit outcome, but neither does an
orchestration failure. -/
theorem mainEntry_spec (r : Except String Unit) :
    (mainEntry r).2 = 0 ∧
    (∀ e, r = Except.error e → (mainEntry r).1 = some e) ∧
    (r = Except.ok () → (mainEntry r).1 = none) := by
  cases r with
  | ok u =>
    cases u
    refine ⟨rfl, ?_, fun _ => rfl⟩
    intro e he
    exact Except.noConfusion he
  | error e =>
    refine ⟨rfl, ?_, fun he => Except.noConfusion he⟩
    intro e2 he
    rw [Except.error.injEq] at he
    rw [he]
    rfl

/-- Witness for C9 (amended) at a concrete rejection. -/
theorem mainEntry_spec_witness :
    (mainEntry (Except.error "x")).2 = 0 ∧
    (mainEntry (Except.error "x")).1 = some "x" :=
  ⟨(mainEntry_spec (Except.error "x")).1,
   (mainEntry_spec (Except.error "x")).2.1 "x" rfl⟩

end B3Bench
